import Mathlib

/-!
# Verification of the GraphCodeViewer analysis core (`src/app.py`)

A shallow embedding of the analysis-and-graph-construction engine of the
repository: the metric utilities (`calculate_complexity`, `count_loc`), the
structured (Python/AST) analyzer, the heuristic (C++) analyzer, and the
graph builder `ProjectManager.analyze`, together with theorems settling the
frozen claims about them.

Modelling conventions:
* Python strings are Lean `String`s; the character-level helpers work on
  `List Char` (`String.data`).  `\w` of Python's `re` module is modelled by
  `isWordChar` (ASCII alphanumeric or underscore; the analyzed identifiers
  and keywords are ASCII).
* Behaviour of external libraries is modelled as data: the result of
  `open`/`read` is an `Option String`, the result of `ast.parse` is an
  `Option (List PyStmt)`, and the matches that Python's regex engine finds
  for the heuristic analyzer's three declaration patterns are carried as a
  `CppScanBlock`.  The processing of that data (scope stacks, element
  registration, keyword filtering, dedup keys, edge construction) is
  translated from the source.
* Python `dict`s are ordered association lists with insert-or-overwrite
  semantics (`dictInsert`); Python `set`s are duplicate-free lists.  The
  iteration order of the string set `CppAnalyzer.found_vars` is
  implementation-defined in CPython (hash randomization), so the pipeline
  takes an `iter : List String → List String` argument modelling the order
  in which `for v in self.found_vars` enumerates the set.
-/

/-- ASCII fragment of the regex class `\w`: letters, digits, underscore. -/
def isWordChar (c : Char) : Bool := c.isAlphanum || c == '_'

/-- Word boundary after a keyword occurrence: end of input or a non-word
character (`\b` when the preceding character is a word character). -/
def boundaryAfter : List Char → Bool
  | [] => true
  | c :: _ => !(isWordChar c)

/-- The control-flow/exception keywords counted by `calculate_complexity`
(`src/app.py:49`), in the order of the regex alternation. -/
def ccKeywords : List (List Char) :=
  [['i','f'], ['f','o','r'], ['w','h','i','l','e'], ['c','a','s','e'],
   ['c','a','t','c','h'], ['e','x','c','e','p','t'], ['w','i','t','h']]

/-- Attempt the alternation `(if|for|while|case|catch|except|with)\b` at the
head of `s` (the leading `\b` is handled by the caller): the first keyword
that is a prefix of `s` and is followed by a word boundary. -/
def kwMatch (s : List Char) : Option (List Char) :=
  ccKeywords.find? fun kw =>
    decide (s.take kw.length = kw) && boundaryAfter (s.drop kw.length)

/-- The scan performed by `re.findall(r'\b(if|for|while|case|catch|except|with)\b', s)`:
the number of matches.  `pw` records whether the previous character was a
word character (start of input counts as a non-word position).  A match is
attempted only at positions where the leading `\b` can hold; after a match
the engine resumes at the end of the keyword — since every character inside
a keyword is a word character, resuming one character later with `pw = true`
records exactly the same matches, which keeps the recursion structural. -/
def reKwCount : Bool → List Char → Nat
  | _, [] => 0
  | true, c :: rest => reKwCount (isWordChar c) rest
  | false, c :: rest =>
    match kwMatch (c :: rest) with
    | some _ => 1 + reKwCount true rest
    | none => reKwCount (isWordChar c) rest

/-- Embeds `calculate_complexity` (`src/app.py:48-49`): the number of whole-word
occurrences of the counted keywords, plus one. -/
def calculate_complexity (code_str : String) : Nat :=
  reKwCount false code_str.data + 1

theorem dropWhile_length_le (p : Char → Bool) (l : List Char) :
    (l.dropWhile p).length ≤ l.length := by
  induction l with
  | nil => simp
  | cons c rest ih =>
    by_cases h : p c
    · simpa [List.dropWhile, h] using Nat.le_succ_of_le ih
    · simp [List.dropWhile, h]

/-- Maximal runs of word characters in a string (the whole-word tokens).
Used only to state the specification side of the complexity claim. -/
def wordRuns : List Char → List (List Char)
  | [] => []
  | c :: rest =>
    if isWordChar c then
      (c :: rest.takeWhile isWordChar) :: wordRuns (rest.dropWhile isWordChar)
    else
      wordRuns rest
  termination_by l => l.length
  decreasing_by
    · simp only [List.length_cons]
      exact Nat.lt_succ_of_le (dropWhile_length_le _ _)
    · simp

/-- Specification-side count for the complexity claim: the number of
whole-word occurrences of counted keywords, i.e. the number of maximal
word-character runs that equal one of the keywords. -/
def wholeWordKeywordCount (s : String) : Nat :=
  (wordRuns s.data).countP (fun r => decide (r ∈ ccKeywords))

theorem ccKeywords_facts :
    ∀ kw ∈ ccKeywords, kw ≠ [] ∧ kw.all isWordChar = true := by decide

theorem kwMatch_some_spec {s : List Char} {kw : List Char}
    (h : kwMatch s = some kw) :
    kw ∈ ccKeywords ∧ s.take kw.length = kw ∧
      boundaryAfter (s.drop kw.length) = true := by
  have hmem := List.mem_of_find?_eq_some h
  have hp := List.find?_some h
  simp only [Bool.and_eq_true, decide_eq_true_eq] at hp
  exact ⟨hmem, hp.1, hp.2⟩

theorem kwMatch_none_spec {s : List Char} (h : kwMatch s = none) :
    ∀ kw ∈ ccKeywords,
      ¬(s.take kw.length = kw ∧ boundaryAfter (s.drop kw.length) = true) := by
  intro kw hkw hcontra
  have := List.find?_eq_none.mp h kw hkw
  simp only [Bool.and_eq_true, decide_eq_true_eq] at this
  exact this ⟨hcontra.1, hcontra.2⟩

theorem kwMatch_none_of_head_nonword {c : Char} {rest : List Char}
    (hc : isWordChar c = false) : kwMatch (c :: rest) = none := by
  cases h : kwMatch (c :: rest) with
  | none => rfl
  | some kw =>
    exfalso
    obtain ⟨hmem, htake, _⟩ := kwMatch_some_spec h
    obtain ⟨hne, hall⟩ := ccKeywords_facts kw hmem
    obtain ⟨k0, kt, rfl⟩ := List.exists_cons_of_ne_nil hne
    simp only [List.length_cons, List.take_succ_cons, List.cons.injEq] at htake
    have : isWordChar k0 = true := by
      have := (List.all_eq_true.mp hall) k0 (by simp)
      simpa using this
    rw [← htake.1] at this
    rw [hc] at this
    exact Bool.false_ne_true this

theorem takeWhile_append_of_all {kw rest' : List Char}
    (hall : kw.all isWordChar = true) (hb : boundaryAfter rest' = true) :
    (kw ++ rest').takeWhile isWordChar = kw ∧
      (kw ++ rest').dropWhile isWordChar = rest' := by
  induction kw with
  | nil =>
    simp only [List.nil_append]
    cases rest' with
    | nil => simp
    | cons r rt =>
      simp only [boundaryAfter, Bool.not_eq_true'] at hb
      simp [List.takeWhile, List.dropWhile, hb]
  | cons k kt ih =>
    simp only [List.all_cons, Bool.and_eq_true] at hall
    have := ih hall.2
    simp [List.takeWhile, List.dropWhile, hall.1, this.1, this.2]

theorem dropWhile_head_not (p : Char → Bool) (l : List Char) :
    ∀ d0 dt, l.dropWhile p = d0 :: dt → p d0 = false := by
  induction l with
  | nil => intro d0 dt h; simp [List.dropWhile] at h
  | cons c rest ih =>
    intro d0 dt h
    by_cases hc : p c
    · rw [List.dropWhile_cons_of_pos hc] at h
      exact ih d0 dt h
    · rw [List.dropWhile_cons_of_neg hc] at h
      cases h
      simpa using hc

theorem reKwCount_true_eq (l : List Char) :
    reKwCount true l = reKwCount false (l.dropWhile isWordChar) := by
  induction l with
  | nil => rfl
  | cons c rest ih =>
    by_cases hc : isWordChar c = true
    · rw [List.dropWhile_cons_of_pos hc]
      simpa [reKwCount, hc] using ih
    · have hc' : isWordChar c = false := by simpa using hc
      rw [List.dropWhile_cons_of_neg hc]
      simp [reKwCount, kwMatch_none_of_head_nonword hc', hc']

theorem reKwCount_false_eq_countRuns :
    ∀ (n : Nat) (l : List Char), l.length ≤ n →
      reKwCount false l = (wordRuns l).countP (fun r => decide (r ∈ ccKeywords)) := by
  intro n
  induction n with
  | zero =>
    intro l hl
    have : l = [] := List.length_eq_zero.mp (Nat.le_zero.mp hl)
    subst this
    simp [reKwCount, wordRuns]
  | succ n ih =>
    intro l hl
    cases l with
    | nil => simp [reKwCount, wordRuns]
    | cons c rest =>
      simp only [List.length_cons, Nat.succ_le_succ_iff] at hl
      by_cases hc : isWordChar c = true
      · have hruns : wordRuns (c :: rest) =
            (c :: rest.takeWhile isWordChar) :: wordRuns (rest.dropWhile isWordChar) := by
          rw [wordRuns]
          simp [hc]
        cases hkm : kwMatch (c :: rest) with
        | some kw =>
          -- the matched keyword is exactly the maximal word run at this position
          obtain ⟨hmem, htake, hb⟩ := kwMatch_some_spec hkm
          obtain ⟨_, hall⟩ := ccKeywords_facts kw hmem
          have hsplit : kw ++ (c :: rest).drop kw.length = c :: rest := by
            conv_rhs => rw [← List.take_append_drop kw.length (c :: rest), htake]
          have hrun : (c :: rest).takeWhile isWordChar = kw ∧
              (c :: rest).dropWhile isWordChar = (c :: rest).drop kw.length := by
            have := takeWhile_append_of_all hall hb
            rw [hsplit] at this
            exact this
          have htw : (c :: rest).takeWhile isWordChar = c :: rest.takeWhile isWordChar := by
            simp [List.takeWhile, hc]
          have hdw : (c :: rest).dropWhile isWordChar = rest.dropWhile isWordChar := by
            simp [List.dropWhile, hc]
          have hlen : (rest.dropWhile isWordChar).length ≤ n :=
            Nat.le_trans (dropWhile_length_le _ _) hl
          have lhs : reKwCount false (c :: rest) = 1 + reKwCount true rest := by
            simp [reKwCount, hkm]
          rw [lhs, reKwCount_true_eq, ih _ hlen, hruns]
          have hkwrun : c :: rest.takeWhile isWordChar = kw := by
            rw [← htw, hrun.1]
          rw [List.countP_cons]
          have : decide ((c :: rest.takeWhile isWordChar) ∈ ccKeywords) = true := by
            rw [hkwrun]; simpa using hmem
          rw [this]
          simp
          omega
        | none =>
          have lhs : reKwCount false (c :: rest) = reKwCount true rest := by
            simp [reKwCount, hkm, hc]
          have hlen : (rest.dropWhile isWordChar).length ≤ n :=
            Nat.le_trans (dropWhile_length_le _ _) hl
          rw [lhs, reKwCount_true_eq, ih _ hlen, hruns, List.countP_cons]
          have hnotkw : decide ((c :: rest.takeWhile isWordChar) ∈ ccKeywords) = false := by
            by_contra hne
            have hmem : (c :: rest.takeWhile isWordChar) ∈ ccKeywords := by
              simpa using hne
            -- if the maximal run were a keyword, kwMatch would have succeeded
            set run := c :: rest.takeWhile isWordChar with hrundef
            have htw : (c :: rest).takeWhile isWordChar = run := by
              simp [List.takeWhile, hc, hrundef]
            have hsplit : run ++ (c :: rest).dropWhile isWordChar = c :: rest := by
              rw [← htw]; exact List.takeWhile_append_dropWhile _ _
            have htake : (c :: rest).take run.length = run := by
              conv_lhs => rw [← hsplit]
              exact List.take_left run _
            have hdrop : (c :: rest).drop run.length = (c :: rest).dropWhile isWordChar := by
              conv_lhs => rw [← hsplit]
              exact List.drop_left run _
            have hb : boundaryAfter ((c :: rest).drop run.length) = true := by
              rw [hdrop]
              cases hd : (c :: rest).dropWhile isWordChar with
              | nil => rfl
              | cons d0 dt =>
                have := dropWhile_head_not isWordChar (c :: rest) d0 dt hd
                simp [boundaryAfter, this]
            exact kwMatch_none_spec hkm run hmem ⟨htake, hb⟩
          rw [hnotkw]
          simp
      · have hc' : isWordChar c = false := by simpa using hc
        have lhs : reKwCount false (c :: rest) = reKwCount false rest := by
          simp [reKwCount, kwMatch_none_of_head_nonword hc', hc']
        have hruns : wordRuns (c :: rest) = wordRuns rest := by
          rw [wordRuns]; simp [hc']
        rw [lhs, hruns, ih _ hl]

/-- Embeds `count_loc` (`src/app.py:51-52`): the number of lines with a
non-whitespace character (lines split on newline; `str.strip()` removes
whitespace, so a line counts exactly when it has a non-whitespace char). -/
def splitLines : List Char → List (List Char)
  | [] => [[]]
  | c :: rest =>
    if c = '\n' then [] :: splitLines rest
    else
      match splitLines rest with
      | [] => [[c]]
      | l :: ls => (c :: l) :: ls

def count_loc (code_str : String) : Nat :=
  (splitLines code_str.data).countP (fun l => l.any (fun c => !c.isWhitespace))

/-- Embeds `str.split('::')[0]` — the root-scope segment of an element id:
everything before the first `::`. -/
def rootSegL : List Char → List Char
  | [] => []
  | ':' :: ':' :: _ => []
  | c :: rest => c :: rootSegL rest

def rootSeg (s : String) : String := String.mk (rootSegL s.data)

/-- Embeds `str.split('::')` — full split on the scope separator (leftmost,
non-overlapping occurrences, like Python's `str.split`). -/
def splitSegsL : List Char → List (List Char)
  | [] => [[]]
  | ':' :: ':' :: rest => [] :: splitSegsL rest
  | c :: rest =>
    match splitSegsL rest with
    | [] => [[c]]
    | l :: ls => (c :: l) :: ls

/-- Embeds `str.split('::')[-1]` — the last scope segment. -/
def lastSeg (s : String) : String := String.mk ((splitSegsL s.data).getLastD [])

/-- Embeds `os.path.basename` on POSIX: the suffix after the last `/`. -/
def basenameGo : List Char → List Char → List Char
  | acc, [] => acc.reverse
  | _, '/' :: rest => basenameGo [] rest
  | acc, c :: rest => basenameGo (c :: acc) rest

def pyBasename (p : String) : String := String.mk (basenameGo [] p.data)

/-- Embeds `str.endswith(suffix)`. -/
def endsWithL (suffix l : List Char) : Bool :=
  l.reverse.take suffix.length = suffix.reverse

def pyEndsWith (s suffix : String) : Bool := endsWithL suffix.data s.data

/-- Embeds `str.lower()` (ASCII fragment, as used for `search_text`). -/
def pyLower (s : String) : String := String.mk (s.data.map Char.toLower)

/-- Embeds `str.replace('_', '-')` as used for the node class names (single
character pattern and replacement, hence a character map). -/
def pyReplaceUnderscore (s : String) : String :=
  String.mk (s.data.map (fun c => if c = '_' then '-' else c))

/-- Embeds `str.startswith(prefix)`. -/
def startsWithL (pre l : List Char) : Bool := l.take pre.length = pre

def pyStartsWith (s pre : String) : Bool := startsWithL pre.data s.data

/-- Python slice `text[a:b]` for `0 ≤ a, b ≤ len` (as used in
`extract_body`). -/
def listSlice (l : List Char) (a b : Nat) : List Char := (l.drop a).take (b - a)

/-- Embeds `CppAnalyzer.extract_body` (`src/app.py:243-250`).  The `while idx <
length` loop is expressed structurally on `rest = text.drop idx`; `balance`
and `idx` evolve exactly as in the source, and the loop returns
`(text[start+1:idx-1], idx)` as soon as the balance returns to zero after
processing a character. -/
def extractBodyLoop (text : List Char) (start : Nat) :
    Int → Nat → List Char → String × Nat
  | _, idx, [] =>
    -- `while idx < length` failed: `return "", idx`
    ("", idx)
  | balance, idx, c :: rest =>
    let balance := if c = '{' then balance + 1
                   else if c = '}' then balance - 1 else balance
    let idx := idx + 1
    if balance = 0 then (String.mk (listSlice text (start + 1) (idx - 1)), idx)
    else extractBodyLoop text start balance idx rest

def CppAnalyzer.extract_body (text : List Char) (start : Nat) : String × Nat :=
  extractBodyLoop text start 0 start (text.drop start)

/-- Net brace balance (`'{'` minus `'}'`) of a character list; used to state
the "never rebalanced" hypothesis of the safety claim. -/
def braceBalance (l : List Char) : Int :=
  l.foldl (fun b c => if c = '{' then b + 1 else if c = '}' then b - 1 else b) 0

theorem braceBalance_append_char (l : List Char) (c : Char) :
    braceBalance (l ++ [c]) =
      (if c = '{' then braceBalance l + 1
       else if c = '}' then braceBalance l - 1 else braceBalance l) := by
  simp [braceBalance, List.foldl_append]

theorem listSlice_succ_of_drop {text : List Char} {idx : Nat} {c : Char}
    {rest : List Char} (hd : text.drop idx = c :: rest) {start : Nat}
    (hs : start ≤ idx) :
    listSlice text start (idx + 1) = listSlice text start idx ++ [c] := by
  have hc : text[idx]? = some c := by
    have h0 : (text.drop idx)[0]? = some c := by rw [hd]; simp
    rw [List.getElem?_drop] at h0
    simpa using h0
  unfold listSlice
  have h1 : idx + 1 - start = (idx - start) + 1 := by omega
  rw [h1, List.take_succ]
  congr 1
  rw [List.getElem?_drop]
  have h2 : start + (idx - start) = idx := by omega
  rw [h2, hc]
  rfl

theorem extractBodyLoop_no_rebalance (text : List Char) (start : Nat) :
    ∀ (rest : List Char) (idx : Nat) (balance : Int),
      rest = text.drop idx → start ≤ idx → idx ≤ text.length →
      balance = braceBalance (listSlice text start idx) →
      (∀ j, j ≤ text.length → start < j →
        braceBalance (listSlice text start j) ≠ 0) →
      extractBodyLoop text start balance idx rest = ("", text.length) := by
  intro rest
  induction rest with
  | nil =>
    intro idx balance hd hs hle _ _
    have : text.length - idx = 0 := by
      have := congrArg List.length hd
      simp [List.length_drop] at this
      omega
    have hidx : idx = text.length := by omega
    simp [extractBodyLoop, hidx]
  | cons c rest' ih =>
    intro idx balance hd hs hle hb hnever
    have hd' : text.drop idx = c :: rest' := hd.symm
    have hlt : idx < text.length := by
      have := congrArg List.length hd
      simp [List.length_drop] at this
      omega
    have hdrop' : text.drop (idx + 1) = rest' := by
      have h1 : List.drop 1 (List.drop idx text) = List.drop (idx + 1) text :=
        List.drop_drop 1 idx text
      rw [hd'] at h1
      simpa using h1.symm
    have hstep : (if c = '{' then balance + 1
        else if c = '}' then balance - 1 else balance) =
        braceBalance (listSlice text start (idx + 1)) := by
      rw [listSlice_succ_of_drop hd' hs, braceBalance_append_char, hb]
    have hnz : braceBalance (listSlice text start (idx + 1)) ≠ 0 :=
      hnever (idx + 1) (by omega) (by omega)
    show extractBodyLoop text start balance idx (c :: rest') = ("", text.length)
    rw [extractBodyLoop]
    simp only [hstep]
    rw [if_neg hnz]
    exact ih (idx + 1) _ hdrop'.symm (by omega) (by omega) rfl hnever

/-- C10.  The heuristic analyzer's brace-balance body extraction is total
(it is a Lean function, so it terminates and returns a pair on every
input), and when the brace opened at `start` is never rebalanced before the
end of the text — every prefix extending past `start` has nonzero net brace
balance — it returns the empty body together with the text's length. -/
theorem extract_body_unbalanced_returns_length (text : List Char) (start : Nat)
    (hstart : start < text.length)
    (hnever : ∀ j < text.length + 1, start < j →
      braceBalance (listSlice text start j) ≠ 0) :
    CppAnalyzer.extract_body text start = ("", text.length) := by
  apply extractBodyLoop_no_rebalance text start (text.drop start) start 0 rfl
      (Nat.le_refl _) (Nat.le_of_lt hstart)
  · simp [listSlice, braceBalance]
  · intro j hj hsj
    exact hnever j (by omega) hsj

/-- Witness for C10 at a concrete input: in `"{ab"` the brace opened at
index 0 is never closed, and the scanner returns `("", 3)`. -/
theorem extract_body_unbalanced_witness :
    (0 < "\x7bab".data.length ∧
      ∀ j < "\x7bab".data.length + 1, 0 < j →
        braceBalance (listSlice "\x7bab".data 0 j) ≠ 0) ∧
    CppAnalyzer.extract_body "\x7bab".data 0 = ("", "\x7bab".data.length) :=
  ⟨⟨by decide, by decide⟩,
    extract_body_unbalanced_returns_length "\x7bab".data 0 (by decide) (by decide)⟩

/-- A registered code element, i.e. one value of the analyzers' `elements`
dicts (`src/app.py`).  File elements carry no `parent`/`complexity`/`loc`
keys in the source; the merge step reads them via `.get(key, 0)`, which the
defaults `none` / `0` model. -/
structure Element where
  id : String
  name : String
  type : String
  lang : String
  parent : Option String
  code : String
  complexity : Nat
  loc : Nat
deriving DecidableEq, Repr

/-- Ordered association list with Python-`dict` update semantics: inserting
an existing key overwrites the value in place, a new key is appended. -/
def dictInsert (d : List (String × Element)) (k : String) (v : Element) :
    List (String × Element) :=
  if d.any (fun p => p.1 = k) then
    d.map (fun p => if p.1 = k then (k, v) else p)
  else d ++ [(k, v)]

/-- Lookup `d[k]` / membership `k in d`: the first (hence, with `dictInsert`, the only)
binding of `k`. -/
def dictGet (d : List (String × Element)) (k : String) : Option Element :=
  (d.find? (fun p => decide (p.1 = k))).map Prod.snd

/-- Merge `{**a, **b}`: all of `a`'s bindings, updated/extended by `b`'s. -/
def dictMerge (a b : List (String × Element)) : List (String × Element) :=
  b.foldl (fun d p => dictInsert d p.1 p.2) a

/-- One record of the flat element list returned by
`ProjectManager.analyze`: the `data` dict of a graph node. -/
structure NodeData where
  id : String
  label : String
  name : String
  code : String
  type : String
  lang : String
  complexity : Nat
  loc : Nat
  search_text : String
  parent : Option String
deriving DecidableEq, Repr

/-- A record of the output list: a node, a call edge (`data` with
`source`/`target`/`snippet`), or a variable-usage edge (`data` with only
`source`/`target`, classes `var-usage`). -/
inductive GraphEl where
  | node (data : NodeData) (classes : String)
  | callEdge (source target snippet : String) (classes : String)
  | varEdge (source target : String)
deriving DecidableEq, Repr

/-- The fragment of the Python AST traversed by `PythonAnalyzer`
(`ast.NodeVisitor` with handlers for `ClassDef`, `FunctionDef`, `Assign`,
`Call`; every other node is traversed generically).  `name` carries the
`ast.Name` constructor with `isLoad` recording whether its ctx is
`ast.Load`; `call`'s `segment` carries the (truthy) result of
`ast.get_source_segment` when it is available.  Each statement carries the
result of `PythonAnalyzer._get_code` (its source segment plus immediately
preceding comment lines) as data, since that is a function of the raw file
text. -/
inductive PyExpr where
  | const
  | name (id : String) (isLoad : Bool)
  | attrAccess (value : PyExpr) (attr : String)
  | call (func : PyExpr) (args : List PyExpr) (segment : Option String)
deriving Repr

inductive PyStmt where
  | classDef (name : String) (body : List PyStmt) (code : String)
  | funcDef (name : String) (body : List PyStmt) (code : String)
  | assign (targets : List PyExpr) (value : PyExpr) (code : String)
  | exprStmt (value : PyExpr)
deriving Repr

/-- Mutable state of a `PythonAnalyzer` instance; `current_scope` is the
Python list used as a stack (last entry is the innermost scope). -/
structure PyState where
  elements : List (String × Element)
  calls : List (String × String × String)
  var_usages : List (String × String)
  global_vars : List String
  current_scope : List String
deriving Repr

def scopeTop (st : PyState) : String := st.current_scope.getLastD ""

/- The identifiers of `ast.Name` nodes with `Load` ctx in a statement's
subtree, as collected by the `ast.walk` loop of `visit_FunctionDef`
(`src/app.py:123-126`).  `ast.walk` enumerates breadth-first; we collect
depth-first: the same multiset of `Name` nodes, only the relative order of
distinct loads within one function differs. -/
mutual
def stmtLoads : PyStmt → List String
  | .classDef _ body _ => stmtListLoads body
  | .funcDef _ body _ => stmtListLoads body
  | .assign targets value _ => exprListLoads targets ++ exprLoads value
  | .exprStmt value => exprLoads value

def stmtListLoads : List PyStmt → List String
  | [] => []
  | s :: rest => stmtLoads s ++ stmtListLoads rest

def exprLoads : PyExpr → List String
  | .const => []
  | .name ident isLoad => if isLoad then [ident] else []
  | .attrAccess value _ => exprLoads value
  | .call func args _ => exprLoads func ++ exprListLoads args

def exprListLoads : List PyExpr → List String
  | [] => []
  | e :: rest => exprLoads e ++ exprListLoads rest
end

/- The `ast.NodeVisitor` dispatch of `PythonAnalyzer` (`src/app.py:99-152`):
`visit_ClassDef`, `visit_FunctionDef`, `visit_Assign`, `visit_Call`, and
generic traversal for all other nodes. -/
mutual
def visitStmt (st : PyState) : PyStmt → PyState
  | .classDef cname body code =>
    let class_id := scopeTop st ++ "::" ++ cname
    let el : Element :=
      ⟨class_id, cname, "class", "python", some (scopeTop st), code, 0, count_loc code⟩
    let st := { st with elements := dictInsert st.elements class_id el }
    let st := { st with current_scope := st.current_scope ++ [class_id] }
    let st := visitStmtList st body
    { st with current_scope := st.current_scope.dropLast }
  | .funcDef fname body code =>
    let func_id := scopeTop st ++ "::" ++ fname
    let f_type := if pyStartsWith fname "__" then "dunder" else "function"
    let el : Element :=
      ⟨func_id, fname, f_type, "python", some (scopeTop st), code,
        calculate_complexity code, count_loc code⟩
    let st' := { st with elements := dictInsert st.elements func_id el }
    let st' := { st' with current_scope := st'.current_scope ++ [func_id] }
    let st' := visitStmtList st' body
    let st' := { st' with current_scope := st'.current_scope.dropLast }
    -- `for subnode in ast.walk(node)`: collect Load names of known globals
    (stmtListLoads body).foldl
      (fun s ident =>
        if ident ∈ s.global_vars then
          { s with var_usages := s.var_usages ++ [(func_id, ident)] }
        else s) st'
  | .assign targets value code =>
    let st :=
      if st.current_scope.length = 1 then
        targets.foldl (fun s t =>
          match t with
          | .name ident _ =>
            -- `PythonAnalyzer._add_var` (`src/app.py:134-141`)
            let var_id := scopeTop s ++ "::" ++ ident
            let el : Element :=
              ⟨var_id, ident, "variable", "python", some (scopeTop s), code, 0, 1⟩
            { s with
              global_vars :=
                if ident ∈ s.global_vars then s.global_vars
                else s.global_vars ++ [ident],
              elements := dictInsert s.elements var_id el }
          | _ => s) st
      else st
    let st := visitExprList st targets
    visitExpr st value
  | .exprStmt value => visitExpr st value

def visitStmtList (st : PyState) : List PyStmt → PyState
  | [] => st
  | s :: rest => visitStmtList (visitStmt st s) rest

def visitExpr (st : PyState) : PyExpr → PyState
  | .const => st
  | .name _ _ => st
  | .attrAccess value _ => visitExpr st value
  | .call func args segment =>
    let st :=
      if st.current_scope.length > 1 then
        let caller := scopeTop st
        match func with
        | .name ident _ =>
          { st with calls := st.calls ++
              [(caller, ident, segment.getD (ident ++ "(...)"))] }
        | .attrAccess _ attrName =>
          { st with calls := st.calls ++
              [(caller, attrName, segment.getD (attrName ++ "(...)"))] }
        | _ => st
      else st
    let st := visitExpr st func
    visitExprList st args

def visitExprList (st : PyState) : List PyExpr → PyState
  | [] => st
  | e :: rest => visitExprList (visitExpr st e) rest
end

/-- Embeds `CppAnalyzer.keywords` (`src/app.py:159`). -/
def cppReservedWords : List String :=
  ["if", "while", "for", "switch", "return", "else", "printf", "std",
   "int", "void", "bool", "string", "class", "struct", "public", "private"]

/-- One match of the heuristic variable-declaration pattern on a block:
`group(2)` (the variable name) and the source line recovered around the
match (`src/app.py:184-193`). -/
structure CppScanVar where
  name : String
  code : String
deriving Repr

/-- One match of the heuristic function-header pattern on a block:
`f_name = group(2).strip()`, the brace-balanced `body`, the `full_code`
after `lstrip(';}\n\r')`, and the matches that the two call patterns of
`find_calls` produce on `body` — `rawCalls` the `group(1)` values of
`(\b(?:\w+::)*\w+)\s*\(` in match order, `rawMemberCalls` the
`(group(1), group(2))` pairs of the member-access pattern. -/
structure CppScanFunc where
  name : String
  body : String
  code : String
  rawCalls : List String
  rawMemberCalls : List (String × String)
deriving Repr

/-- What the three `finditer` passes of `CppAnalyzer.parse_block` find on
one masked block, in match order: variable declarations, class/struct
headers (name, `full_code`, and the scan of the extracted body), function
headers.  The regex engine's behaviour is carried as data; everything done
with the matches is translated from the source. -/
inductive CppScanBlock where
  | mk (vars : List CppScanVar)
      (classes : List (String × String × CppScanBlock))
      (funcs : List CppScanFunc)

/-- Mutable state of a `CppAnalyzer` instance. -/
structure CppState where
  elements : List (String × Element)
  calls : List (String × String × String)
  var_usages : List (String × String)
  found_vars : List String
deriving Repr

/-- Embeds `re.search(r'\b' + re.escape(v) + r'\b', body)` (`src/app.py:240`): some
position carries `v` preceded and followed by a word boundary.  The names in
`found_vars` come from a `\w+` group, so they consist of word characters and
the leading `\b` holds exactly at positions after a non-word character (or
the start). -/
def wholeWordSearchL (v : List Char) : Bool → List Char → Bool
  | _, [] => false
  | pw, c :: rest =>
    (!pw && (decide ((c :: rest).take v.length = v) &&
      boundaryAfter ((c :: rest).drop v.length)))
    || wholeWordSearchL v (isWordChar c) rest

def wholeWordSearch (v body : String) : Bool :=
  wholeWordSearchL v.data false body.data

/-- Embeds `CppAnalyzer.find_calls` (`src/app.py:225-241`): record the keyword-
filtered call references found by the two call patterns, then scan
`found_vars` — in the set-iteration order `iterOrder` — for whole-word
occurrences in the body. -/
def CppAnalyzer.find_calls (iterOrder : List String → List String)
    (st : CppState) (body caller_id : String) (rawCalls : List String)
    (rawMemberCalls : List (String × String)) : CppState :=
  let st := rawCalls.foldl (fun s cm =>
    let callee := lastSeg cm
    if callee ∈ cppReservedWords then s
    else { s with calls := s.calls ++ [(caller_id, callee, callee ++ "(...)")] }) st
  let st := rawMemberCalls.foldl (fun s cm =>
    if cm.2 ∈ cppReservedWords then s
    else { s with calls := s.calls ++
        [(caller_id, cm.2, "..." ++ cm.1 ++ cm.2 ++ "(...)")] }) st
  (iterOrder st.found_vars).foldl (fun s v =>
    if wholeWordSearch v body then
      { s with var_usages := s.var_usages ++ [(caller_id, v)] }
    else s) st

/- `CppAnalyzer.parse_block` (`src/app.py:183-223`): register the block's
variable declarations (keyword-filtered, added to `found_vars`), then its
classes (recursing into each extracted body), then its functions
(keyword-filtered on the last `::` segment, typed `entry_point` for `main`
and `dunder` for destructors, with `find_calls` run on each body). -/
mutual
def CppAnalyzer.parse_block (iterOrder : List String → List String)
    (st : CppState) (block : CppScanBlock) (parent_id : String) : CppState :=
  match block with
  | .mk vars classes funcs =>
    let st := vars.foldl (fun s v =>
      if v.name ∈ cppReservedWords then s
      else
        let var_id := parent_id ++ "::" ++ v.name
        let el : Element :=
          ⟨var_id, v.name, "variable", "cpp", some parent_id, v.code, 0, 1⟩
        { s with
          found_vars :=
            if v.name ∈ s.found_vars then s.found_vars
            else s.found_vars ++ [v.name],
          elements := dictInsert s.elements var_id el }) st
    let st := CppAnalyzer.parse_classList iterOrder st classes parent_id
    funcs.foldl (fun s f =>
      let clean_name := lastSeg f.name
      if clean_name ∈ cppReservedWords then s
      else
        let f_id := parent_id ++ "::" ++ f.name
        let f_type :=
          if clean_name = "main" then "entry_point"
          else if pyStartsWith clean_name "~" then "dunder" else "function"
        let el : Element :=
          ⟨f_id, f.name, f_type, "cpp", some parent_id, f.code,
            calculate_complexity f.code, count_loc f.code⟩
        let s := { s with elements := dictInsert s.elements f_id el }
        CppAnalyzer.find_calls iterOrder s f.body f_id f.rawCalls
          f.rawMemberCalls) st

def CppAnalyzer.parse_classList (iterOrder : List String → List String)
    (st : CppState) (classes : List (String × String × CppScanBlock))
    (parent_id : String) : CppState :=
  match classes with
  | [] => st
  | (c_name, full_code, nested) :: rest =>
    let c_id := parent_id ++ "::" ++ c_name
    let el : Element :=
      ⟨c_id, c_name, "class", "cpp", some parent_id, full_code, 0,
        count_loc full_code⟩
    let st := { st with elements := dictInsert st.elements c_id el }
    let st := CppAnalyzer.parse_block iterOrder st nested c_id
    CppAnalyzer.parse_classList iterOrder st rest parent_id
end

/-- One file of the analyzed input, with the behaviour of the external
machinery carried as data: `read` is the result of
`open(...).read()` (`none`: the read raised), `tree` is the result of
`ast.parse` on the text (`none`: a parse error; only consulted for `.py`
files), `scan` is what the heuristic patterns find on the comment-masked
text (only consulted by the C++ analyzer). -/
structure FsFile where
  path : String
  read : Option String
  tree : Option (List PyStmt)
  scan : CppScanBlock

/-- Embeds `PythonAnalyzer.parse_file` (`src/app.py:69-82`): the file element is
registered (and the scope stack seeded) before the `try` block, so it
remains even when the read or the parse fails; its `code` is updated to the
file text as soon as the read succeeds. -/
def PythonAnalyzer.parse_file (st : PyState) (f : FsFile) : PyState :=
  let file_id := pyBasename f.path
  let el : Element := ⟨file_id, file_id, "file", "python", none, "", 0, 0⟩
  let st := { st with
    elements := dictInsert st.elements file_id el,
    current_scope := [file_id] }
  match f.read with
  | none => st
  | some text =>
    let el : Element := ⟨file_id, file_id, "file", "python", none, text, 0, 0⟩
    let st := { st with elements := dictInsert st.elements file_id el }
    match f.tree with
    | none => st
    | some body => visitStmtList st body

/-- Embeds `CppAnalyzer.parse_file` (`src/app.py:169-181`): everything happens
inside the `try` block, so a failed read contributes nothing; on a
successful read the file element is registered, `found_vars` is reset, and
the block scan runs. -/
def CppAnalyzer.parse_file (iterOrder : List String → List String)
    (st : CppState) (f : FsFile) : CppState :=
  let file_id := pyBasename f.path
  match f.read with
  | none => st
  | some text =>
    let el : Element := ⟨file_id, file_id, "file", "cpp", none, text, 0, 0⟩
    let st := { st with
      elements := dictInsert st.elements file_id el,
      found_vars := [] }
    CppAnalyzer.parse_block iterOrder st f.scan file_id

/-- The input to `ProjectManager.analyze`, abstracting
`os.path.isfile`/`os.path.isdir`/`glob.glob`: a single existing file, a
directory together with its recursive glob results (`pyFiles` the
`**/*.py` matches; `cppFiles` the concatenation of the `*.cpp`, `*.c`,
`*.h`, `*.hpp` matches in that order), or a path that is neither. -/
inductive PathInput where
  | file (f : FsFile)
  | directory (pyFiles : List FsFile) (cppFiles : List FsFile)
  | missing

def pyInit : PyState := ⟨[], [], [], [], []⟩

def cppInit : CppState := ⟨[], [], [], []⟩

/-- The analyzer runs of `ProjectManager.analyze` (`src/app.py:257-267`):
fresh analyzers; for a single file the dispatch is only on
`path.endswith('.py')` (the allow-list is not consulted), for a directory
each enabled language's glob results are parsed in order. -/
def runAnalyzers (iterOrder : List String → List String) (input : PathInput)
    (allowed_langs : List String) : PyState × CppState :=
  match input with
  | .file f =>
    if pyEndsWith f.path ".py" then (PythonAnalyzer.parse_file pyInit f, cppInit)
    else (pyInit, CppAnalyzer.parse_file iterOrder cppInit f)
  | .directory pyFiles cppFiles =>
    ((if "python" ∈ allowed_langs then
        pyFiles.foldl PythonAnalyzer.parse_file pyInit
      else pyInit),
     (if "cpp" ∈ allowed_langs then
        cppFiles.foldl (CppAnalyzer.parse_file iterOrder) cppInit
      else cppInit))
  | .missing => (pyInit, cppInit)

/-- Embeds `all_elems = {**py.elements, **cpp.elements}` (`src/app.py:269`). -/
def mergedElems (iterOrder : List String → List String) (input : PathInput)
    (allowed_langs : List String) : List (String × Element) :=
  let st := runAnalyzers iterOrder input allowed_langs
  dictMerge st.1.elements st.2.elements

/-- Embeds `all_calls = py.calls + cpp.calls` (`src/app.py:270`). -/
def mergedCalls (iterOrder : List String → List String) (input : PathInput)
    (allowed_langs : List String) : List (String × String × String) :=
  let st := runAnalyzers iterOrder input allowed_langs
  st.1.calls ++ st.2.calls

/-- Embeds `all_vars = py.var_usages + cpp.var_usages` (`src/app.py:271`). -/
def mergedVarRefs (iterOrder : List String → List String) (input : PathInput)
    (allowed_langs : List String) : List (String × String) :=
  let st := runAnalyzers iterOrder input allowed_langs
  st.1.var_usages ++ st.2.var_usages

/-- The node built for one element entry (`src/app.py:274-296`). -/
def mkNode (all_elems : List (String × Element)) (eid : String)
    (data : Element) : GraphEl :=
  let classes := pyReplaceUnderscore data.type ++ " " ++ data.lang ++ "-node"
  let classes := if data.complexity > 10 then classes ++ " complex-code" else classes
  let search_txt := pyLower (data.name ++ " " ++ data.code)
  let parent :=
    match data.parent with
    | some p => if (dictGet all_elems p).isSome then some p else none
    | none => none
  .node
    ⟨eid, data.name, data.name, data.code, data.type, data.lang,
      data.complexity, data.loc, search_txt, parent⟩
    classes

/-- One step of the call-edge loop's inner iteration over `all_elems.items()`
(`src/app.py:300-309`); the accumulator carries the output list and
`added_edges`.  The `all_elems[src]` lookup cannot fail here (call sources
are analyzer-registered element ids; a missing key would raise `KeyError`
in the source), so the `none` branch leaves the state unchanged. -/
def callInnerStep (all_elems : List (String × Element))
    (src dest_name snip : String) (acc : List GraphEl × List String)
    (entry : String × Element) : List GraphEl × List String :=
  let (els, added) := acc
  let (tid, tdata) := entry
  if tdata.name = dest_name ∧ tdata.type ≠ "variable" then
    match dictGet all_elems src with
    | some sdata =>
      if sdata.lang = tdata.lang then
        let edge_id := src ++ "->" ++ tid
        if edge_id ∈ added then (els, added)
        else
          let root_src := rootSeg src
          let root_tgt := rootSeg tid
          let classes := if root_src ≠ root_tgt then "cross-file" else "internal"
          (els ++ [.callEdge src tid snip classes], added ++ [edge_id])
      else (els, added)
    | none => (els, added)
  else (els, added)

/-- The call-edge loop (`src/app.py:299-309`). -/
def callLoop (all_elems : List (String × Element))
    (calls : List (String × String × String))
    (acc : List GraphEl × List String) : List GraphEl × List String :=
  calls.foldl
    (fun a c => all_elems.foldl (callInnerStep all_elems c.1 c.2.1 c.2.2) a)
    acc

/-- One step of the variable-usage loop's inner iteration
(`src/app.py:312-319`).  `lastEid` is the value still bound to the loop
variable `eid` of the node loop at line 274: the source checks and updates
`added_edges` with `eid`, not with the composed `edge_id` it computes. -/
def varInnerStep (all_elems : List (String × Element))
    (lastEid fid vname : String) (acc : List GraphEl × List String)
    (entry : String × Element) : List GraphEl × List String :=
  let (els, added) := acc
  let (tid, data) := entry
  if data.type = "variable" ∧ data.name = vname then
    match dictGet all_elems fid with
    | some srcData =>
      if srcData.lang = data.lang then
        if pyBasename (rootSeg srcData.id) = pyBasename (rootSeg data.id) then
          let edge_id := fid ++ "->" ++ tid
          let _ := edge_id   -- computed but never used, as in the source
          if lastEid ∈ added then (els, added)
          else (els ++ [.varEdge fid tid], added ++ [lastEid])
        else (els, added)
      else (els, added)
    | none => (els, added)
  else (els, added)

/-- The variable-usage loop (`src/app.py:311-319`). -/
def varLoop (all_elems : List (String × Element)) (lastEid : String)
    (varRefs : List (String × String)) (acc : List GraphEl × List String) :
    List GraphEl × List String :=
  varRefs.foldl
    (fun a vr => all_elems.foldl (varInnerStep all_elems lastEid vr.1 vr.2) a)
    acc

/-- Embeds `ProjectManager.analyze` (`src/app.py:257-320`): run the analyzers,
merge, emit one node per merged element, then the call edges (dedup keyed
on the composed `src->tid`), then the variable-usage edges (dedup keyed —
faithfully to the source's slip — on the stale node-loop variable `eid`,
whose final value is the last merged element key). -/
def ProjectManager.analyze (iterOrder : List String → List String)
    (input : PathInput) (allowed_langs : List String) : List GraphEl :=
  let all_elems := mergedElems iterOrder input allowed_langs
  let nodes := all_elems.foldl (fun acc p => acc ++ [mkNode all_elems p.1 p.2]) []
  let lastEid := (all_elems.map Prod.fst).getLastD ""
  let acc := callLoop all_elems (mergedCalls iterOrder input allowed_langs) (nodes, [])
  (varLoop all_elems lastEid (mergedVarRefs iterOrder input allowed_langs) acc).1

/-- A scan with no matches (used for files the heuristic patterns find
nothing in, and as the unused `scan` component of Python files). -/
def emptyScan : CppScanBlock := .mk [] [] []

/-- Concrete input for the var-usage dedup claims: a Python file `p.py`
with a module-level variable `X` read by two functions `h` and `k`. -/
def pyTwoReaders : FsFile :=
  ⟨"p.py", some "X = 1\ndef h():\n    X\ndef k():\n    X",
    some [.assign [.name "X" false] .const "X = 1",
          .funcDef "h" [.exprStmt (.name "X" true)] "def h():\n    X",
          .funcDef "k" [.exprStmt (.name "X" true)] "def k():\n    X"],
    emptyScan⟩

/-- C1.  The source computes the composed key `edge_id = f"{fid}->{tid}"`
but performs the "already added" check and the "mark as added" write on the
stale node-loop variable `eid` (`src/app.py:316-319`), so after the first
variable-usage edge every further one is skipped: on `pyTwoReaders` the
reference `(p.py::k, X)` is collected and its target variable element is
registered, yet only the edge `h -> X` is emitted and `k -> X` is not. -/
theorem analyze_var_usage_dedup_slip :
    ("p.py::k", "X") ∈ mergedVarRefs id (.file pyTwoReaders) ["python"] ∧
    (dictGet (mergedElems id (.file pyTwoReaders) ["python"]) "p.py::X").isSome ∧
    GraphEl.varEdge "p.py::h" "p.py::X" ∈
      ProjectManager.analyze id (.file pyTwoReaders) ["python"] ∧
    GraphEl.varEdge "p.py::k" "p.py::X" ∉
      ProjectManager.analyze id (.file pyTwoReaders) ["python"] := by
  refine ⟨by decide, by decide, by decide, by decide⟩

/-- Concrete input for the determinism claim: a C++ file with two
module-level variables both used in one function body (the scan data is
what the declaration/function patterns match on this text). -/
def cppTwoVars : FsFile :=
  ⟨"f.cpp", some "int v1 = 0;\nint v2 = 0;\nvoid h() \x7b v1; v2; \x7d", none,
    .mk [⟨"v1", "int v1 = 0;"⟩, ⟨"v2", "int v2 = 0;"⟩] []
      [⟨"h", " v1; v2; ", "void h() \x7b v1; v2; \x7d", [], []⟩]⟩

/-- C4.  Which single variable-usage edge survives the defective dedup of
`src/app.py:317-319` depends on the iteration order of the Python set
`found_vars` (`for v in self.found_vars`, `src/app.py:239`), which CPython
randomizes across interpreter sessions: with one set order the output
contains `h -> v1` and with the reversed order (a permutation of the same
set, as the last conjunct records) it contains `h -> v2` instead, so two
runs over the same unchanged input can produce different edge sets. -/
theorem analyze_output_depends_on_set_order :
    GraphEl.varEdge "f.cpp::h" "f.cpp::v1" ∈
      ProjectManager.analyze id (.directory [] [cppTwoVars]) ["cpp"] ∧
    GraphEl.varEdge "f.cpp::h" "f.cpp::v1" ∉
      ProjectManager.analyze List.reverse (.directory [] [cppTwoVars]) ["cpp"] ∧
    GraphEl.varEdge "f.cpp::h" "f.cpp::v2" ∈
      ProjectManager.analyze List.reverse (.directory [] [cppTwoVars]) ["cpp"] ∧
    (∀ l : List String, (List.reverse l).Perm l) := by
  refine ⟨by decide, by decide, by decide, fun l => List.reverse_perm l⟩

/-- C9.  A nonexistent path, and a directory whose recursive extension
globs match no files, both yield the empty node/edge list (the embedded
`analyze` is a total function, so no error reaches the caller; the Dash
callback additionally pre-checks `os.path.exists` and returns `[]`,
`src/app.py:594`). -/
theorem analyze_missing_or_empty_dir_is_empty
    (iterOrder : List String → List String) (allowed_langs : List String) :
    ProjectManager.analyze iterOrder .missing allowed_langs = [] ∧
    ProjectManager.analyze iterOrder (.directory [] []) allowed_langs = [] := by
  constructor
  · rfl
  · show ProjectManager.analyze iterOrder (.directory [] []) allowed_langs = []
    unfold ProjectManager.analyze mergedElems mergedCalls mergedVarRefs
      runAnalyzers
    by_cases hp : "python" ∈ allowed_langs <;>
      by_cases hc : "cpp" ∈ allowed_langs <;>
        simp [hp, hc, pyInit, cppInit, dictMerge, callLoop, varLoop]

/-- A `foldl` preserves any invariant its step preserves (the step may use
membership of the element in the list). -/
theorem foldl_inv {α σ : Type} (f : σ → α → σ) (inv : σ → Prop) :
    ∀ (l : List α), (∀ a ∈ l, ∀ s, inv s → inv (f s a)) →
      ∀ s, inv s → inv (l.foldl f s) := by
  intro l
  induction l with
  | nil => intro _ s hs; simpa
  | cons a rest ih =>
    intro h s hs
    simp only [List.foldl_cons]
    exact ih (fun b hb t ht => h b (List.mem_cons_of_mem a hb) t ht) _
      (h a (List.mem_cons_self a rest) s hs)

/-- The `(source, target)` pairs of the call edges in an output list. -/
def callEdgePairs (els : List GraphEl) : List (String × String) :=
  els.filterMap (fun e =>
    match e with
    | .callEdge s t _ _ => some (s, t)
    | _ => none)

/-- The composed dedup key `f"{src}->{tid}"`. -/
def edgeKey (p : String × String) : String := p.1 ++ "->" ++ p.2

def callAccInv (acc : List GraphEl × List String) : Prop :=
  (callEdgePairs acc.1).Pairwise (· ≠ ·) ∧
    ∀ p ∈ callEdgePairs acc.1, edgeKey p ∈ acc.2

theorem callInnerStep_callAccInv (all_elems : List (String × Element))
    (src dest_name snip : String) (entry : String × Element)
    (acc : List GraphEl × List String) (h : callAccInv acc) :
    callAccInv (callInnerStep all_elems src dest_name snip acc entry) := by
  obtain ⟨els, added⟩ := acc
  obtain ⟨tid, tdata⟩ := entry
  unfold callInnerStep
  dsimp only
  split
  · cases hget : dictGet all_elems src with
    | none => simpa using h
    | some sdata =>
      dsimp only
      split
      · split
        · exact h
        · rename_i hnotin
          constructor
          · simp only [callEdgePairs, List.filterMap_append] at h ⊢
            rw [List.pairwise_append]
            refine ⟨h.1, by simp, ?_⟩
            intro p hp q hq
            simp only [List.filterMap_cons, List.filterMap_nil] at hq
            simp at hq
            intro hpq
            apply hnotin
            have := h.2 p hp
            rw [hpq, hq] at this
            exact this
          · intro p hp
            simp only [callEdgePairs, List.filterMap_append, List.mem_append] at hp
            rcases hp with hp | hp
            · exact List.mem_append_left _ (h.2 p hp)
            · simp only [List.filterMap_cons, List.filterMap_nil] at hp
              simp at hp
              subst hp
              simp [edgeKey]
      · exact h
  · exact h

theorem varInnerStep_callAccInv (all_elems : List (String × Element))
    (lastEid fid vname : String) (entry : String × Element)
    (acc : List GraphEl × List String) (h : callAccInv acc) :
    callAccInv (varInnerStep all_elems lastEid fid vname acc entry) := by
  obtain ⟨els, added⟩ := acc
  obtain ⟨tid, tdata⟩ := entry
  unfold varInnerStep
  dsimp only
  split
  · cases hget : dictGet all_elems fid with
    | none => simpa using h
    | some sdata =>
      dsimp only
      split
      · split
        · split
          · exact h
          · constructor
            · simpa [callEdgePairs, List.filterMap_append] using h.1
            · intro p hp
              simp only [callEdgePairs, List.filterMap_append] at hp
              simp only [List.filterMap_cons, List.filterMap_nil] at hp
              simp at hp
              exact List.mem_append_left _ (h.2 p (by simpa [callEdgePairs] using hp))
        · exact h
      · exact h
  · exact h

theorem callLoop_callAccInv (all_elems : List (String × Element))
    (calls : List (String × String × String)) (acc : List GraphEl × List String)
    (h : callAccInv acc) : callAccInv (callLoop all_elems calls acc) := by
  unfold callLoop
  apply foldl_inv _ callAccInv calls _ _ h
  intro c _ s hs
  apply foldl_inv _ callAccInv all_elems _ _ hs
  intro entry _ s' hs'
  exact callInnerStep_callAccInv all_elems c.1 c.2.1 c.2.2 entry s' hs'

theorem varLoop_callAccInv (all_elems : List (String × Element))
    (lastEid : String) (varRefs : List (String × String))
    (acc : List GraphEl × List String) (h : callAccInv acc) :
    callAccInv (varLoop all_elems lastEid varRefs acc) := by
  unfold varLoop
  apply foldl_inv _ callAccInv varRefs _ _ h
  intro vr _ s hs
  apply foldl_inv _ callAccInv all_elems _ _ hs
  intro entry _ s' hs'
  exact varInnerStep_callAccInv all_elems lastEid vr.1 vr.2 entry s' hs'

theorem nodeFold_no_edges (all_elems : List (String × Element)) :
    callEdgePairs
      (all_elems.foldl (fun acc p => acc ++ [mkNode all_elems p.1 p.2]) []) = [] := by
  apply foldl_inv (fun acc p => acc ++ [mkNode all_elems p.1 p.2])
    (fun acc => callEdgePairs acc = []) all_elems _ [] rfl
  intro p _ s hs
  simp [callEdgePairs, List.filterMap_append, mkNode] at hs ⊢
  exact hs

/-- C5.  In every merged output, the call edges have pairwise-distinct
ordered `(source, target)` pairs: the emission at `src/app.py:303-309`
checks and records the composed key `src->tid` in `added_edges` before
appending, so duplicate call sites for the same pair collapse into a single
edge (the variable-usage loop appends only `var-usage` records and cannot
add call edges). -/
theorem analyze_call_edges_pairwise_distinct
    (iterOrder : List String → List String) (input : PathInput)
    (allowed_langs : List String) :
    (callEdgePairs (ProjectManager.analyze iterOrder input allowed_langs)).Pairwise
      (· ≠ ·) := by
  unfold ProjectManager.analyze
  have h0 : callAccInv
      (((mergedElems iterOrder input allowed_langs).foldl
        (fun acc p => acc ++ [mkNode (mergedElems iterOrder input allowed_langs) p.1 p.2]) []),
       ([] : List String)) := by
    constructor
    · rw [nodeFold_no_edges]
      exact List.Pairwise.nil
    · intro p hp
      rw [nodeFold_no_edges] at hp
      simp at hp
  have h1 := callLoop_callAccInv (mergedElems iterOrder input allowed_langs)
    (mergedCalls iterOrder input allowed_langs) _ h0
  have h2 := varLoop_callAccInv (mergedElems iterOrder input allowed_langs)
    (((mergedElems iterOrder input allowed_langs).map Prod.fst).getLastD "")
    (mergedVarRefs iterOrder input allowed_langs) _ h1
  exact h2.1

def crossInv (acc : List GraphEl × List String) : Prop :=
  ∀ s t snip cls, GraphEl.callEdge s t snip cls ∈ acc.1 →
    (cls = "cross-file" ↔ rootSeg s ≠ rootSeg t)

theorem callInnerStep_crossInv (all_elems : List (String × Element))
    (src dest_name snip : String) (entry : String × Element)
    (acc : List GraphEl × List String) (h : crossInv acc) :
    crossInv (callInnerStep all_elems src dest_name snip acc entry) := by
  obtain ⟨els, added⟩ := acc
  obtain ⟨tid, tdata⟩ := entry
  unfold callInnerStep
  dsimp only
  split
  · cases hget : dictGet all_elems src with
    | none => simpa using h
    | some sdata =>
      dsimp only
      split
      · split
        · exact h
        · intro s t sn cls hmem
          simp only [List.mem_append, List.mem_singleton] at hmem
          rcases hmem with hmem | hmem
          · exact h s t sn cls hmem
          · cases hmem
            by_cases hroot : rootSeg src ≠ rootSeg tid
            · simp [hroot]
            · simp only [if_neg hroot]
              constructor
              · intro hcl; exact absurd hcl (by decide)
              · intro hr; exact absurd hr hroot
      · exact h
  · exact h

theorem varInnerStep_crossInv (all_elems : List (String × Element))
    (lastEid fid vname : String) (entry : String × Element)
    (acc : List GraphEl × List String) (h : crossInv acc) :
    crossInv (varInnerStep all_elems lastEid fid vname acc entry) := by
  obtain ⟨els, added⟩ := acc
  obtain ⟨tid, tdata⟩ := entry
  unfold varInnerStep
  dsimp only
  split
  · cases hget : dictGet all_elems fid with
    | none => simpa using h
    | some sdata =>
      dsimp only
      split
      · split
        · split
          · exact h
          · intro s t sn cls hmem
            simp only [List.mem_append, List.mem_singleton] at hmem
            rcases hmem with hmem | hmem
            · exact h s t sn cls hmem
            · cases hmem
        · exact h
      · exact h
  · exact h

theorem nodeFold_no_call_edges (all_elems : List (String × Element)) :
    ∀ s t snip cls, GraphEl.callEdge s t snip cls ∈
      (all_elems.foldl (fun acc p => acc ++ [mkNode all_elems p.1 p.2]) []) → False := by
  have := foldl_inv (fun acc p => acc ++ [mkNode all_elems p.1 p.2])
    (fun acc => ∀ s t snip cls, GraphEl.callEdge s t snip cls ∈ acc → False)
    all_elems ?_ [] (by simp)
  · exact this
  · intro p _ s hs a b c d hmem
    simp only [List.mem_append, List.mem_singleton] at hmem
    rcases hmem with hmem | hmem
    · exact hs a b c d hmem
    · simp [mkNode] at hmem

theorem callLoop_crossInv (all_elems : List (String × Element))
    (calls : List (String × String × String)) (acc : List GraphEl × List String)
    (h : crossInv acc) : crossInv (callLoop all_elems calls acc) := by
  unfold callLoop
  apply foldl_inv _ crossInv calls _ _ h
  intro c _ s hs
  apply foldl_inv _ crossInv all_elems _ _ hs
  intro entry _ s' hs'
  exact callInnerStep_crossInv all_elems c.1 c.2.1 c.2.2 entry s' hs'

theorem varLoop_crossInv (all_elems : List (String × Element))
    (lastEid : String) (varRefs : List (String × String))
    (acc : List GraphEl × List String) (h : crossInv acc) :
    crossInv (varLoop all_elems lastEid varRefs acc) := by
  unfold varLoop
  apply foldl_inv _ crossInv varRefs _ _ h
  intro vr _ s hs
  apply foldl_inv _ crossInv all_elems _ _ hs
  intro entry _ s' hs'
  exact varInnerStep_crossInv all_elems lastEid vr.1 vr.2 entry s' hs'

/-- C8.  Every call edge in the merged output is classified `cross-file`
exactly when the root-scope segment (the id up to the first `::`) of its
source differs from that of its target, and `internal` otherwise
(`src/app.py:305-308`). -/
theorem analyze_call_edge_cross_iff_roots_differ
    (iterOrder : List String → List String) (input : PathInput)
    (allowed_langs : List String) (s t snip cls : String)
    (hmem : GraphEl.callEdge s t snip cls ∈
      ProjectManager.analyze iterOrder input allowed_langs) :
    cls = "cross-file" ↔ rootSeg s ≠ rootSeg t := by
  have h0 : crossInv
      (((mergedElems iterOrder input allowed_langs).foldl
        (fun acc p => acc ++ [mkNode (mergedElems iterOrder input allowed_langs) p.1 p.2]) []),
       ([] : List String)) :=
    fun a b c d hm => (nodeFold_no_call_edges _ a b c d hm).elim
  have h2 := varLoop_crossInv (mergedElems iterOrder input allowed_langs)
    (((mergedElems iterOrder input allowed_langs).map Prod.fst).getLastD "")
    (mergedVarRefs iterOrder input allowed_langs) _
    (callLoop_crossInv (mergedElems iterOrder input allowed_langs)
      (mergedCalls iterOrder input allowed_langs) _ h0)
  exact h2 s t snip cls hmem

/-- Scenario A files: `a.py` holds `f`, which calls `g`; `b.py` holds `g`. -/
def scenAFileA : FsFile :=
  ⟨"a.py", some "def f():\n    g()",
    some [.funcDef "f" [.exprStmt (.call (.name "g" true) [] (some "g()"))]
      "def f():\n    g()"],
    emptyScan⟩

def scenAFileB : FsFile :=
  ⟨"b.py", some "def g():\n    pass",
    some [.funcDef "g" [] "def g():\n    pass"], emptyScan⟩

/-- Witness for C8 (scenario A of the spec): the cross-file call edge
`a.py::f -> b.py::g` is in the output, and the theorem applied to it yields
that the two root scopes differ. -/
theorem analyze_call_edge_cross_iff_roots_differ_witness :
    GraphEl.callEdge "a.py::f" "b.py::g" "g()" "cross-file" ∈
      ProjectManager.analyze id (.directory [scenAFileA, scenAFileB] []) ["python"] ∧
    rootSeg "a.py::f" ≠ rootSeg "b.py::g" :=
  ⟨by decide,
    (analyze_call_edge_cross_iff_roots_differ id
      (.directory [scenAFileA, scenAFileB] []) ["python"]
      "a.py::f" "b.py::g" "g()" "cross-file" (by decide)).mp rfl⟩

theorem dictGet_mem {d : List (String × Element)} {k : String} {v : Element}
    (h : dictGet d k = some v) : (k, v) ∈ d := by
  unfold dictGet at h
  cases hf : d.find? (fun p => decide (p.1 = k)) with
  | none => rw [hf] at h; simp at h
  | some p =>
    rw [hf] at h
    simp only [Option.map_some'] at h
    have hp := List.find?_some hf
    have hm := List.mem_of_find?_eq_some hf
    obtain ⟨p1, p2⟩ := p
    simp only [decide_eq_true_eq] at hp
    simp only [Option.some.injEq] at h
    subst hp
    subst h
    exact hm

def varEdgeInv (all_elems : List (String × Element))
    (acc : List GraphEl × List String) : Prop :=
  ∀ s t, GraphEl.varEdge s t ∈ acc.1 →
    ∃ sd td, (s, sd) ∈ all_elems ∧ (t, td) ∈ all_elems ∧
      td.type = "variable" ∧ sd.lang = td.lang ∧
      pyBasename (rootSeg sd.id) = pyBasename (rootSeg td.id)

theorem callInnerStep_varEdgeInv (all_elems : List (String × Element))
    (src dest_name snip : String) (entry : String × Element)
    (acc : List GraphEl × List String) (h : varEdgeInv all_elems acc) :
    varEdgeInv all_elems (callInnerStep all_elems src dest_name snip acc entry) := by
  obtain ⟨els, added⟩ := acc
  obtain ⟨tid, tdata⟩ := entry
  unfold callInnerStep
  dsimp only
  split
  · cases hget : dictGet all_elems src with
    | none => simpa using h
    | some sdata =>
      dsimp only
      split
      · split
        · exact h
        · intro s t hmem
          simp only [List.mem_append, List.mem_singleton] at hmem
          rcases hmem with hmem | hmem
          · exact h s t hmem
          · cases hmem
      · exact h
  · exact h

theorem varInnerStep_varEdgeInv (all_elems : List (String × Element))
    (lastEid fid vname : String) (entry : String × Element)
    (hentry : entry ∈ all_elems) (acc : List GraphEl × List String)
    (h : varEdgeInv all_elems acc) :
    varEdgeInv all_elems (varInnerStep all_elems lastEid fid vname acc entry) := by
  obtain ⟨els, added⟩ := acc
  obtain ⟨tid, tdata⟩ := entry
  unfold varInnerStep
  dsimp only
  split
  · rename_i hcond
    cases hget : dictGet all_elems fid with
    | none => simpa using h
    | some srcData =>
      dsimp only
      split
      · rename_i hlang
        split
        · rename_i hbase
          split
          · exact h
          · intro s t hmem
            simp only [List.mem_append, List.mem_singleton] at hmem
            rcases hmem with hmem | hmem
            · exact h s t hmem
            · cases hmem
              exact ⟨srcData, tdata, dictGet_mem hget, hentry,
                hcond.1, hlang, hbase⟩
        · exact h
      · exact h
  · exact h

theorem callLoop_varEdgeInv (all_elems : List (String × Element))
    (calls : List (String × String × String)) (acc : List GraphEl × List String)
    (h : varEdgeInv all_elems acc) :
    varEdgeInv all_elems (callLoop all_elems calls acc) := by
  unfold callLoop
  apply foldl_inv _ (varEdgeInv all_elems) calls _ _ h
  intro c _ s hs
  apply foldl_inv _ (varEdgeInv all_elems) all_elems _ _ hs
  intro entry _ s' hs'
  exact callInnerStep_varEdgeInv all_elems c.1 c.2.1 c.2.2 entry s' hs'

theorem varLoop_varEdgeInv (all_elems : List (String × Element))
    (lastEid : String) (varRefs : List (String × String))
    (acc : List GraphEl × List String) (h : varEdgeInv all_elems acc) :
    varEdgeInv all_elems (varLoop all_elems lastEid varRefs acc) := by
  unfold varLoop
  apply foldl_inv _ (varEdgeInv all_elems) varRefs _ _ h
  intro vr _ s hs
  apply foldl_inv _ (varEdgeInv all_elems) all_elems _ _ hs
  intro entry hentry s' hs'
  exact varInnerStep_varEdgeInv all_elems lastEid vr.1 vr.2 entry hentry s' hs'

theorem nodeFold_no_var_edges (all_elems : List (String × Element)) :
    ∀ s t, GraphEl.varEdge s t ∈
      (all_elems.foldl (fun acc p => acc ++ [mkNode all_elems p.1 p.2]) []) → False := by
  have := foldl_inv (fun acc p => acc ++ [mkNode all_elems p.1 p.2])
    (fun acc => ∀ s t, GraphEl.varEdge s t ∈ acc → False)
    all_elems ?_ [] (by simp)
  · exact this
  · intro p _ s hs a b hmem
    simp only [List.mem_append, List.mem_singleton] at hmem
    rcases hmem with hmem | hmem
    · exact hs a b hmem
    · simp [mkNode] at hmem

/-- C7.  Every variable-usage edge in the merged output joins a source
element and a target element of the merged element set such that the target
is a `variable`, both carry the same `lang` tag, and the basenames of their
ids' root-scope segments agree — the guards of `src/app.py:313-315` are
checked before every emission, so in particular no variable-usage edge ever
joins two elements with different language tags. -/
theorem analyze_var_edge_same_lang_same_basename
    (iterOrder : List String → List String) (input : PathInput)
    (allowed_langs : List String) (s t : String)
    (hmem : GraphEl.varEdge s t ∈
      ProjectManager.analyze iterOrder input allowed_langs) :
    ∃ sd td, (s, sd) ∈ mergedElems iterOrder input allowed_langs ∧
      (t, td) ∈ mergedElems iterOrder input allowed_langs ∧
      td.type = "variable" ∧ sd.lang = td.lang ∧
      pyBasename (rootSeg sd.id) = pyBasename (rootSeg td.id) := by
  have h0 : varEdgeInv (mergedElems iterOrder input allowed_langs)
      (((mergedElems iterOrder input allowed_langs).foldl
        (fun acc p => acc ++ [mkNode (mergedElems iterOrder input allowed_langs) p.1 p.2]) []),
       ([] : List String)) :=
    fun a b hm => (nodeFold_no_var_edges _ a b hm).elim
  have h2 := varLoop_varEdgeInv (mergedElems iterOrder input allowed_langs)
    (((mergedElems iterOrder input allowed_langs).map Prod.fst).getLastD "")
    (mergedVarRefs iterOrder input allowed_langs) _
    (callLoop_varEdgeInv (mergedElems iterOrder input allowed_langs)
      (mergedCalls iterOrder input allowed_langs) _ h0)
  exact h2 s t hmem

/-- Witness for C7: the variable-usage edge `p.py::h -> p.py::X` is in the
output of `pyTwoReaders`, and the theorem applied to it produces the
same-language, same-basename element pair. -/
theorem analyze_var_edge_same_lang_same_basename_witness :
    ∃ sd td, ("p.py::h", sd) ∈ mergedElems id (.file pyTwoReaders) ["python"] ∧
      ("p.py::X", td) ∈ mergedElems id (.file pyTwoReaders) ["python"] ∧
      td.type = "variable" ∧ sd.lang = td.lang ∧
      pyBasename (rootSeg sd.id) = pyBasename (rootSeg td.id) :=
  analyze_var_edge_same_lang_same_basename id (.file pyTwoReaders) ["python"]
    "p.py::h" "p.py::X" (by decide)

/-- C6.  For every code string, `calculate_complexity` equals the number of
whole-word occurrences of the counted control-flow/exception keywords
(`if`, `for`, `while`, `case`, `catch`, `except`, `with`) plus one — the
regex matches of `\b(...)\b` are exactly the maximal word-character runs
equal to a keyword; in particular a string with zero such occurrences has
complexity exactly 1. -/
theorem calculate_complexity_counts_whole_word_keywords (code_str : String) :
    calculate_complexity code_str = wholeWordKeywordCount code_str + 1 := by
  unfold calculate_complexity wholeWordKeywordCount
  congr 1
  exact reKwCount_false_eq_countRuns code_str.data.length code_str.data
    (Nat.le_refl _)

/-- A Python file whose text does not parse (`ast.parse` raises). -/
def badPy : FsFile := ⟨"bad.py", some "def f(", none, emptyScan⟩

/-- C2 counterexample.  A file whose parse fails still contributes an
element: `PythonAnalyzer.parse_file` registers the file element before the
`try` block (`src/app.py:71-73`), so the merged element set of `badPy`
contains the file node — an element whose root scope is the file's own id —
with the file text as its `code` (set at `src/app.py:78` before the failing
parse). -/
theorem parse_failure_file_node_remains :
    ("bad.py",
      (⟨"bad.py", "bad.py", "file", "python", none, "def f(", 0, 0⟩ : Element)) ∈
      mergedElems id (.file badPy) ["python"] ∧
    rootSeg "bad.py" = pyBasename badPy.path :=
  ⟨by decide, by decide⟩

/-- C2 amended.  For a single `.py` file whose read or parse fails, the
output consists of exactly the file node (its `code` is the file text when
the read succeeded, empty otherwise): no class, function, or variable
element of that file appears, and no edges are emitted.  For a non-`.py`
single file the heuristic analyzer registers its file element inside the
`try` block (`src/app.py:172-181`), so a failed read contributes nothing at
all. -/
theorem parse_failure_contributes_only_file_node
    (iterOrder : List String → List String) (f : FsFile)
    (allowed_langs : List String) :
    (pyEndsWith f.path ".py" = true → f.read = none ∨ f.tree = none →
      ProjectManager.analyze iterOrder (.file f) allowed_langs =
        [GraphEl.node
          ⟨pyBasename f.path, pyBasename f.path, pyBasename f.path,
            f.read.getD "", "file", "python", 0, 0,
            pyLower (pyBasename f.path ++ " " ++ f.read.getD ""), none⟩
          "file python-node"]) ∧
    (pyEndsWith f.path ".py" = false → f.read = none →
      ProjectManager.analyze iterOrder (.file f) allowed_langs = []) := by
  constructor
  · intro hpy hfail
    cases hr : f.read with
    | none =>
      simp [ProjectManager.analyze, mergedElems, mergedCalls, mergedVarRefs,
        runAnalyzers, hpy, PythonAnalyzer.parse_file, hr, pyInit, cppInit,
        dictMerge, dictInsert, callLoop, varLoop, mkNode]
      decide
    | some text =>
      rcases hfail with hfail | hfail
      · rw [hr] at hfail; cases hfail
      · simp [ProjectManager.analyze, mergedElems, mergedCalls, mergedVarRefs,
          runAnalyzers, hpy, PythonAnalyzer.parse_file, hr, hfail, pyInit,
          cppInit, dictMerge, dictInsert, callLoop, varLoop, mkNode]
        decide
  · intro hpy hr
    simp [ProjectManager.analyze, mergedElems, mergedCalls, mergedVarRefs,
      runAnalyzers, hpy, CppAnalyzer.parse_file, hr, pyInit, cppInit,
      dictMerge, callLoop, varLoop]

/-- An unreadable C++ file (the `open`/`read` raises). -/
def unreadableCpp : FsFile := ⟨"u.cpp", none, none, emptyScan⟩

/-- Witness for the amended C2: at `badPy` (read succeeds, parse fails) the
output is exactly the file node, and at `unreadableCpp` (read fails) it is
empty. -/
theorem parse_failure_contributes_only_file_node_witness :
    (pyEndsWith badPy.path ".py" = true ∧
      ProjectManager.analyze id (.file badPy) ["python"] =
        [GraphEl.node
          ⟨"bad.py", "bad.py", "bad.py", "def f(", "file", "python", 0, 0,
            pyLower ("bad.py" ++ " " ++ "def f("), none⟩
          "file python-node"]) ∧
    (pyEndsWith unreadableCpp.path ".py" = false ∧
      ProjectManager.analyze id (.file unreadableCpp) ["cpp"] = []) := by
  refine ⟨⟨by decide, ?_⟩, ⟨by decide, ?_⟩⟩
  · rw [(parse_failure_contributes_only_file_node id badPy ["python"]).1
      (by decide) (Or.inr rfl)]
    rfl
  · exact (parse_failure_contributes_only_file_node id unreadableCpp ["cpp"]).2
      (by decide) rfl

/-- A text file that is neither a `.py` file nor has a C++ extension. -/
def notesTxt : FsFile :=
  ⟨"notes.txt", some "int a = 1;", none, .mk [⟨"a", "int a = 1;"⟩] [] []⟩

/-- C3 counterexample.  With only `python` enabled, a single-file input
`notes.txt` — whose extension matches no language at all — is nevertheless
analyzed: `analyze` sends every non-`.py` single file to the C++ analyzer
without consulting the allow-list (`src/app.py:259-261`), so the output
contains the heuristic analyzer's file node and the merged element set the
variable it scanned. -/
theorem single_file_runs_disabled_heuristic_analyzer :
    GraphEl.node
      ⟨"notes.txt", "notes.txt", "notes.txt", "int a = 1;", "file", "cpp", 0, 0,
        pyLower ("notes.txt" ++ " " ++ "int a = 1;"), none⟩ "file cpp-node" ∈
      ProjectManager.analyze id (.file notesTxt) ["python"] ∧
    ("notes.txt::a",
      (⟨"notes.txt::a", "a", "variable", "cpp", some "notes.txt",
        "int a = 1;", 0, 1⟩ : Element)) ∈
      mergedElems id (.file notesTxt) ["python"] :=
  ⟨by decide, by decide⟩

/-- C3 amended.  For a single-file input the language allow-list is not
consulted and the extension sets are not matched: the dispatch is solely
`path.endswith('.py')` — a `.py` path runs exactly the structured analyzer
and any other path runs exactly the heuristic analyzer, whatever the
enabled languages (extension filtering and the allow-list apply only to
directory scans). -/
theorem single_file_dispatch_ignores_allow_list
    (iterOrder : List String → List String) (f : FsFile)
    (a1 a2 : List String) :
    ProjectManager.analyze iterOrder (.file f) a1 =
      ProjectManager.analyze iterOrder (.file f) a2 ∧
    (pyEndsWith f.path ".py" = true →
      runAnalyzers iterOrder (.file f) a1 =
        (PythonAnalyzer.parse_file pyInit f, cppInit)) ∧
    (pyEndsWith f.path ".py" = false →
      runAnalyzers iterOrder (.file f) a1 =
        (pyInit, CppAnalyzer.parse_file iterOrder cppInit f)) := by
  refine ⟨rfl, fun h => ?_, fun h => ?_⟩
  · simp [runAnalyzers, h]
  · simp [runAnalyzers, h]

/-- Witness for the amended C3 at `notesTxt`: its path does not end in
`.py`, and the run with only `python` enabled is exactly a heuristic-
analyzer run. -/
theorem single_file_dispatch_ignores_allow_list_witness :
    pyEndsWith notesTxt.path ".py" = false ∧
    runAnalyzers id (.file notesTxt) ["python"] =
      (pyInit, CppAnalyzer.parse_file id cppInit notesTxt) :=
  ⟨by decide,
    (single_file_dispatch_ignores_allow_list id notesTxt ["python"] []).2.2
      (by decide)⟩
